import Mathlib

/-!
Verification development for the `stamp` directory-stamping tool
(`internal/stamp`: `stamp.go`, `validator.go`, `template.go`).

Strings are modelled as `List Char` (`Str`): Go compares and slices strings
bytewise, and UTF-8 byte order coincides with code-point order, so
`List Char` with code-point lexicographic order is a faithful model.
File-system reads and the `text/template` parser are modelled by carrying,
with each source file, the result of parsing its content
(`SrcFile.parse : Option Node`, `none` meaning a parse error), exactly the
data `extractTemplateVars` and `processTemplate` obtain by reading and
parsing the file.
-/

namespace Stamp

/-- Go strings, modelled as lists of code points. -/
abbrev Str := List Char

/-- Model of Go `strings.HasSuffix s suffix`. -/
def hasSuffix (s suffix : Str) : Bool := decide (suffix <:+ s)

/-- Model of Go `strings.TrimSuffix s suffix`: drop `suffix` from the end
of `s` when it is a suffix, otherwise return `s` unchanged. -/
def trimSuffix (s suffix : Str) : Str :=
  if hasSuffix s suffix then s.take (s.length - suffix.length) else s

/-- Model of Go `filepath.Join base rel` for a clean relative path `rel`:
joining with `"."` yields `base` itself, otherwise the slash-joined path. -/
def joinPath (base rel : Str) : Str :=
  if rel = ['.'] then base else base ++ '/' :: rel

/-!
The template syntax tree, following `text/template/parse`: exactly the node
kinds inspected by `walkNode` in `validator.go` (`FieldNode`, `ListNode`,
`ActionNode`, `PipeNode`, `CommandNode`, `IfNode`, `RangeNode`, `WithNode`,
`TemplateNode`); every other node kind (`TextNode`, `NumberNode`,
`StringNode`, ...) contains no variables and is collapsed into
`text`/`other`.  `IfNode`, `RangeNode` and `WithNode` each embed a
`BranchNode` whose `Pipe`, `List` and `ElseList` components may be nil,
modelled as the three `Option Node` arguments.
-/

mutual
/-- A `text/template` parse-tree node.  Sibling sequences (`ListNode.Nodes`,
`PipeNode.Cmds`, `CommandNode.Args`) are represented by the mutually
defined `NodeList`. -/
inductive Node where
  | text (s : Str)
  | field (idents : List Str)
  | list (nodes : NodeList)
  | action (pipe : Option Node)
  | pipe (cmds : NodeList)
  | cmd (args : NodeList)
  | ifn (pipe : Option Node) (body : Option Node) (alt : Option Node)
  | rangen (pipe : Option Node) (body : Option Node) (alt : Option Node)
  | withn (pipe : Option Node) (body : Option Node) (alt : Option Node)
  | tmpl (pipe : Option Node)
  | other

/-- A sequence of sibling parse-tree nodes. -/
inductive NodeList where
  | nil
  | cons (head : Node) (tail : NodeList)
end

/-- View a node sequence as an ordinary list. -/
def NodeList.toList : NodeList → List Node
  | .nil => []
  | .cons n rest => n :: rest.toList

/-- Build a node sequence from an ordinary list. -/
def NodeList.ofList : List Node → NodeList
  | [] => .nil
  | n :: rest => .cons n (NodeList.ofList rest)

mutual
/-- `walkNode` from `validator.go`: recursively walk the AST and record the
first path segment of every `FieldNode`.  The Go code inserts segments into
a set during the walk; the model returns them in traversal order and the
set is recovered by `List.dedup` in `extractTemplateVars`.
`walkBranchNode` (walking `Pipe`, `List`, `ElseList` of a branch node in
that order) is inlined at the three branch-node cases; the loops over
`ListNode.Nodes`, `PipeNode.Cmds` and `CommandNode.Args` are
`walkNodeList`. -/
def walkNode : Node → List Str
  | .text _ => []
  | .field [] => []
  | .field (i :: _) => [i]
  | .list ns => walkNodeList ns
  | .action none => []
  | .action (some p) => walkNode p
  | .pipe cs => walkNodeList cs
  | .cmd args => walkNodeList args
  | .ifn p l e =>
      (match p with | none => [] | some n => walkNode n) ++
      (match l with | none => [] | some n => walkNode n) ++
      (match e with | none => [] | some n => walkNode n)
  | .rangen p l e =>
      (match p with | none => [] | some n => walkNode n) ++
      (match l with | none => [] | some n => walkNode n) ++
      (match e with | none => [] | some n => walkNode n)
  | .withn p l e =>
      (match p with | none => [] | some n => walkNode n) ++
      (match l with | none => [] | some n => walkNode n) ++
      (match e with | none => [] | some n => walkNode n)
  | .tmpl none => []
  | .tmpl (some p) => walkNode p
  | .other => []

/-- Walk each node of a sibling sequence in order. -/
def walkNodeList : NodeList → List Str
  | .nil => []
  | .cons n rest => walkNode n ++ walkNodeList rest
end

/-- `extractTemplateVars` from `validator.go`, at the level of an already
parsed tree root (the file read and parse are modelled by `SrcFile.parse`):
collect the distinct variables found by `walkNode` and return them sorted
ascending, as `sort.Strings` does on the key set of the Go map. -/
def extractTemplateVars (root : Node) : List Str :=
  List.insertionSort (· ≤ ·) (walkNode root).dedup

/-- A variable reference occurring anywhere in a tree, as traversed by
`walkNode`: `v` is the first path segment of some `FieldNode` reachable
through list members, action/template pipelines, pipeline commands, command
arguments, or any of the three components (condition pipeline, primary
branch, alternate branch) of an `if`, `range` or `with` node. -/
inductive Occurs (v : Str) : Node → Prop where
  | fieldHead (rest : List Str) : Occurs v (.field (v :: rest))
  | inList {n : Node} {ns : NodeList} : n ∈ ns.toList → Occurs v n → Occurs v (.list ns)
  | inAction {n : Node} : Occurs v n → Occurs v (.action (some n))
  | inPipe {n : Node} {ns : NodeList} : n ∈ ns.toList → Occurs v n → Occurs v (.pipe ns)
  | inCmd {n : Node} {ns : NodeList} : n ∈ ns.toList → Occurs v n → Occurs v (.cmd ns)
  | inIfPipe {n : Node} {l e : Option Node} : Occurs v n → Occurs v (.ifn (some n) l e)
  | inIfBody {n : Node} {p e : Option Node} : Occurs v n → Occurs v (.ifn p (some n) e)
  | inIfAlt {n : Node} {p l : Option Node} : Occurs v n → Occurs v (.ifn p l (some n))
  | inRangePipe {n : Node} {l e : Option Node} : Occurs v n → Occurs v (.rangen (some n) l e)
  | inRangeBody {n : Node} {p e : Option Node} : Occurs v n → Occurs v (.rangen p (some n) e)
  | inRangeAlt {n : Node} {p l : Option Node} : Occurs v n → Occurs v (.rangen p l (some n))
  | inWithPipe {n : Node} {l e : Option Node} : Occurs v n → Occurs v (.withn (some n) l e)
  | inWithBody {n : Node} {p e : Option Node} : Occurs v n → Occurs v (.withn p (some n) e)
  | inWithAlt {n : Node} {p l : Option Node} : Occurs v n → Occurs v (.withn p l (some n))
  | inTmpl {n : Node} : Occurs v n → Occurs v (.tmpl (some n))

/-- `Stamper` from `stamp.go`: the merged template variables and the
configured template extension. -/
structure Stamper where
  templateVars : List (Str × Str)
  templateExt : Str

/-- `New` from `stamp.go`: build a `Stamper`, defaulting the extension to
`".stamp"` when none is given. -/
def Stamper.new (vars : List (Str × Str)) (ext : Str) : Stamper :=
  { templateVars := vars
    templateExt := if ext = [] then ".stamp".toList else ext }

/-- `isTmplNoopFile` from `stamp.go`: the path ends with the template
extension followed by `".noop"`. -/
def Stamper.isTmplNoopFile (s : Stamper) (path : Str) : Bool :=
  hasSuffix path (s.templateExt ++ ".noop".toList)

/-- `removeNoopExtension` from `stamp.go`: strip `".noop"` from the end of
a path. -/
def removeNoopExtension (path : Str) : Str :=
  if hasSuffix path ".noop".toList then trimSuffix path ".noop".toList else path

/-- `removeTemplateExtension` from `template.go`: strip the template
extension from the end of a path. -/
def Stamper.removeTemplateExtension (s : Stamper) (path : Str) : Str :=
  if hasSuffix path s.templateExt then trimSuffix path s.templateExt else path

/-- The three file classes of the classifier (spec §4.3), as decided by the
branch structure of `processFile` in `stamp.go`. -/
inductive FileClass where
  | frozenTemplate
  | template
  | plain
deriving DecidableEq

/-- The classifier: the dispatch order of `processFile` in `stamp.go` —
`.noop` extension checked first (more specific), then the template
extension, otherwise plain. -/
def Stamper.classify (s : Stamper) (srcPath : Str) : FileClass :=
  if s.isTmplNoopFile srcPath then .frozenTemplate
  else if hasSuffix srcPath s.templateExt then .template
  else .plain

/-- One source file, as visited by `filepath.Walk`: its path relative to
the layer root, its content, and the result of parsing the content as a
template (`none` models a parse error).  The parse field stands for
`parse.New(...).Parse(content, ...)` in `extractTemplateVars` and
`template.New(...).Parse(content)` in `processTemplate`, which run the same
parser on the same bytes. -/
structure SrcFile where
  relPath : Str
  content : Str
  parse : Option Node

/-- What `os.Stat`/`filepath.Walk` find at a source-layer path: an existing
directory (with its subdirectories and files in walk order), an existing
regular file, or nothing. -/
inductive SrcInfo where
  | dir (dirs : List Str) (files : List SrcFile)
  | nondirFile (content : Str) (parse : Option Node)
  | missing

/-- A source-layer entry: its path and what the file system holds there. -/
structure SrcDir where
  name : Str
  info : SrcInfo

/-- Errors produced by the stamper, mirroring the `fmt.Errorf`/error
values of `stamp.go`, `validator.go` and `template.go`. -/
inductive StampError where
  | noSources
  | scanFailed
  | validation (missingVars : List (Str × List Str))
  | sourceStat (i : Nat)
  | notDirectory (i : Nat)
  | layerFailed (i : Nat) (e : StampError)
  | renderParse
  | renderExec
deriving DecidableEq

/-- The destination file system touched by one run: written files (newest
write first, so `List.lookup` sees the last writer) and created
directories. -/
structure FS where
  files : List (Str × Str)
  dirs : List Str
deriving DecidableEq

/-- Content of a destination file, `none` when nothing was written there. -/
def FS.lookupFile (fs : FS) (p : Str) : Option Str := fs.files.lookup p

/-- Model of `os.WriteFile`/`os.Create`: (over)write one destination
file. -/
def FS.writeFile (fs : FS) (p c : Str) : FS := { fs with files := (p, c) :: fs.files }

/-- Model of `os.MkdirAll`: create a directory, idempotently. -/
def FS.mkdirAll (fs : FS) (p : Str) : FS :=
  if p ∈ fs.dirs then fs else { fs with dirs := p :: fs.dirs }

/-- Truthiness and printing of a looked-up value, as `text/template` treats
`map[string]string` data: a missing key is the zero value (printed
`"<no value>"`, falsy), an empty string is falsy, anything else truthy. -/
def truthy (v : Option Str) : Bool :=
  match v with
  | none => false
  | some s => !(s = [])

mutual
/-- Models the external `text/template` execution engine (outside this
repository, assumed by spec §4.4 as a given capability) over
`map[string]string` data: text prints itself, a single-segment field prints
the looked-up value (`"<no value>"` for a missing key), a chained field
fails (a string has no fields), `if` renders the taken arm, and constructs
whose stdlib evaluation cannot succeed on string-map data (`range` over a
field, `with` bodies re-binding the dot, sub-template invocation of an
undefined name) fail as render errors. -/
def render (vars : List (Str × Str)) : Node → Except Unit Str
  | .text s => .ok s
  | .field [i] =>
      .ok ((vars.lookup i).getD "<no value>".toList)
  | .field _ => .error ()
  | .list ns => renderList vars ns
  | .action none => .ok []
  | .action (some p) => render vars p
  | .pipe (.cons c .nil) => render vars c
  | .pipe _ => .error ()
  | .cmd (.cons a .nil) => render vars a
  | .cmd _ => .error ()
  | .ifn p l e =>
      match p with
      | some (.pipe (.cons (.cmd (.cons (.field [i]) .nil)) .nil)) =>
          if truthy (vars.lookup i) then
            match l with | none => .ok [] | some b => render vars b
          else
            match e with | none => .ok [] | some b => render vars b
      | _ => .error ()
  | .rangen _ _ _ => .error ()
  | .withn _ _ _ => .error ()
  | .tmpl _ => .error ()
  | .other => .ok []

/-- Render sibling nodes in order, concatenating output and aborting on the
first failure, as `ListNode` execution does. -/
def renderList (vars : List (Str × Str)) : NodeList → Except Unit Str
  | .nil => .ok []
  | .cons n rest =>
      match render vars n with
      | .error e => .error e
      | .ok out =>
          match renderList vars rest with
          | .error e => .error e
          | .ok out' => .ok (out ++ out')
end

/-- `copyFile` from `stamp.go`: read the source content and write it to the
destination. -/
def Stamper.copyFile (_s : Stamper) (content : Str) (destPath : Str) (fs : FS) :
    Option StampError × FS :=
  (none, fs.writeFile destPath content)

/-- `processTmplNoop` from `stamp.go`: strip `".noop"` from the destination
path (keeping the template extension) and copy the file as-is, without
template processing. -/
def Stamper.processTmplNoop (s : Stamper) (f : SrcFile) (destPath : Str) (fs : FS) :
    Option StampError × FS :=
  s.copyFile f.content (removeNoopExtension destPath) fs

/-- `processTemplate` from `template.go`: strip the template extension from
the destination path, parse the source (a parse failure aborts before the
destination file is created), create the destination file and execute the
template into it; a mid-execution failure leaves the created file behind
(modelled as empty). -/
def Stamper.processTemplate (s : Stamper) (f : SrcFile) (destPath : Str) (fs : FS) :
    Option StampError × FS :=
  let destPath := s.removeTemplateExtension destPath
  match f.parse with
  | none => (some .renderParse, fs)
  | some root =>
      match render s.templateVars root with
      | .error _ => (some .renderExec, fs.writeFile destPath [])
      | .ok out => (none, fs.writeFile destPath out)

/-- `processFile` from `stamp.go`: dispatch on the source path — `.noop`
template first, then template, otherwise plain copy. -/
def Stamper.processFile (s : Stamper) (srcPath destPath : Str) (f : SrcFile) (fs : FS) :
    Option StampError × FS :=
  if s.isTmplNoopFile srcPath then s.processTmplNoop f destPath fs
  else if hasSuffix srcPath s.templateExt then s.processTemplate f destPath fs
  else s.copyFile f.content destPath fs

/-- The file portion of `processTemplateDir`'s walk: process each file of
the layer in walk order, aborting on the first error. -/
def Stamper.processDirFiles (s : Stamper) (srcRoot dest : Str) :
    List SrcFile → FS → Option StampError × FS
  | [], fs => (none, fs)
  | f :: rest, fs =>
      match s.processFile (joinPath srcRoot f.relPath) (joinPath dest f.relPath) f fs with
      | (some e, fs') => (some e, fs')
      | (none, fs') => s.processDirFiles srcRoot dest rest fs'

/-- `processTemplateDir` from `stamp.go`: walk one source layer, mirroring
directories with `MkdirAll` (the walk visits the layer root itself first,
whose destination is the destination root) and dispatching each file
through `processFile`. -/
def Stamper.processTemplateDir (s : Stamper) (srcRoot : Str) (dirs : List Str)
    (files : List SrcFile) (dest : Str) (fs : FS) : Option StampError × FS :=
  let fs := fs.mkdirAll (joinPath dest ['.'])
  let fs := dirs.foldl (fun fs d => fs.mkdirAll (joinPath dest d)) fs
  s.processDirFiles srcRoot dest files fs

/-- The per-layer loop of `ExecuteMultiple`: `os.Stat` each source (missing
source or non-directory source is an error at this point), then walk and
process it, wrapping a processing error with the layer ordinal (`i` is
1-based, as in the Go messages). -/
def Stamper.processLayers (s : Stamper) : List SrcDir → Str → FS → Nat →
    Option StampError × FS
  | [], _, fs, _ => (none, fs)
  | d :: rest, dest, fs, i =>
      match d.info with
      | .missing => (some (.sourceStat i), fs)
      | .nondirFile _ _ => (some (.notDirectory i), fs)
      | .dir dirs files =>
          match s.processTemplateDir d.name dirs files dest fs with
          | (some e, fs') => (some (.layerFailed i e), fs')
          | (none, fs') => s.processLayers rest dest fs' (i + 1)

/-- The variable-usage index of `validator.go`: variable name to the
layer-relative paths of the templates referencing it. -/
abbrev Usage := List (Str × List Str)

/-- One `varUsage[v] = append(varUsage[v], relPath)` step: append the path
to the variable's list, creating the entry if absent. -/
def addUsage : Usage → Str → Str → Usage
  | [], v, p => [(v, [p])]
  | (k, ps) :: rest, v, p =>
      if k = v then (k, ps ++ [p]) :: rest else (k, ps) :: addUsage rest v p

/-- Record every extracted variable of one template against its
layer-relative path. -/
def addVars (u : Usage) (vs : List Str) (p : Str) : Usage :=
  vs.foldl (fun u v => addUsage u v p) u

/-- The per-file body of the `collectTemplateVars` walk: skip `.noop` files
and files without the template extension (checked on the full walked path),
skip files whose parse fails, and otherwise record the extracted variables
under the layer-relative path. -/
def Stamper.collectFileVars (s : Stamper) (srcRoot : Str) (f : SrcFile) (u : Usage) : Usage :=
  let path := joinPath srcRoot f.relPath
  if s.isTmplNoopFile path || !hasSuffix path s.templateExt then u
  else
    match f.parse with
    | none => u
    | some root => addVars u (extractTemplateVars root) f.relPath

/-- `collectTemplateVars` from `validator.go`: walk one source directory
and collect variable usage.  A missing source makes the walk itself fail
(`"failed to scan templates"`); a regular file as the source is walked as a
single visit of that file, whose path relative to itself is `"."`. -/
def Stamper.collectTemplateVars (s : Stamper) (d : SrcDir) (u : Usage) :
    Except StampError Usage :=
  match d.info with
  | .missing => .error .scanFailed
  | .nondirFile _ parse? =>
      .ok (if s.isTmplNoopFile d.name || !hasSuffix d.name s.templateExt then u
           else match parse? with
                | none => u
                | some root => addVars u (extractTemplateVars root) ['.'])
  | .dir _ files => .ok (files.foldl (fun u f => s.collectFileVars d.name f u) u)

/-- The scanning loop of `validateMultipleTemplateVars`: collect usage
across all source directories in order. -/
def Stamper.collectAll (s : Stamper) : List SrcDir → Usage → Except StampError Usage
  | [], u => .ok u
  | d :: rest, u =>
      match s.collectTemplateVars d u with
      | .error e => .error e
      | .ok u' => s.collectAll rest u'

/-- `validateMultipleTemplateVars` from `validator.go`: scan all source
directories, keep the usage entries whose variable is not provided, and
fail with a `ValidationError` carrying that map when any is missing. -/
def Stamper.validateMultipleTemplateVars (s : Stamper) (srcDirs : List SrcDir) :
    Except StampError Unit :=
  match s.collectAll srcDirs [] with
  | .error e => .error e
  | .ok u =>
      let missingVars := u.filter fun kv => (s.templateVars.lookup kv.1).isNone
      if missingVars = [] then .ok () else .error (.validation missingVars)

/-- `ExecuteMultiple` from `stamp.go`: reject an empty layer list,
pre-validate all template variables across all layers, create the
destination root, then process each layer in caller order. -/
def Stamper.executeMultiple (s : Stamper) (srcDirs : List SrcDir) (dest : Str) (fs : FS) :
    Option StampError × FS :=
  if srcDirs.isEmpty then (some .noSources, fs)
  else
    match s.validateMultipleTemplateVars srcDirs with
    | .error e => (some e, fs)
    | .ok _ =>
        let fs := fs.mkdirAll dest
        s.processLayers srcDirs dest fs 1

/-!
Derived notions used to state the claims: which files are in scope for
validation scanning, which layer-relative paths reference a variable, and
the destination path and content one source file produces.
-/

/-- A walked file is in scope for validation scanning: not a frozen
`.noop` template, and carrying the template extension (the complement of
the skip condition in `collectTemplateVars`). -/
def Stamper.fileInScope (s : Stamper) (path : Str) : Bool :=
  !s.isTmplNoopFile path && hasSuffix path s.templateExt

/-- A layer entry that is an existing directory, as `LayerList` entries are
specified to be. -/
def SrcDir.isDirLayer (d : SrcDir) : Prop :=
  ∃ ds files, d.info = .dir ds files

/-- One file references variable `v`: the file is in scope, parses, and the
extractor finds `v` in it. -/
def Stamper.fileRefs (s : Stamper) (srcRoot : Str) (f : SrcFile) (v : Str) : Bool :=
  s.fileInScope (joinPath srcRoot f.relPath) &&
    match f.parse with
    | none => false
    | some root => decide (v ∈ extractTemplateVars root)

/-- The layer-relative paths, in walk order, of the files of one directory
layer that reference `v`. -/
def Stamper.dirRefs (s : Stamper) (srcRoot : Str) (files : List SrcFile) (v : Str) : List Str :=
  files.filterMap fun f => if s.fileRefs srcRoot f v then some f.relPath else none

/-- The layer-relative paths, across all directory layers in order, of the
templates referencing `v`. -/
def Stamper.references (s : Stamper) (dirs : List SrcDir) (v : Str) : List Str :=
  dirs.flatMap fun d =>
    match d.info with
    | .dir _ files => s.dirRefs d.name files v
    | _ => []

/-- Append newly collected reference paths to an optional usage entry: an
absent entry stays absent only when nothing is added. -/
def augment (o : Option (List Str)) (ps : List Str) : Option (List Str) :=
  match o, ps with
  | none, [] => none
  | o, ps => some (o.getD [] ++ ps)

/-- The destination path one source file is written to: the joined
destination path, with `".noop"` stripped for frozen templates and the
template extension stripped for templates, per `processFile`'s dispatch. -/
def Stamper.destPathOf (s : Stamper) (srcRoot dest : Str) (f : SrcFile) : Str :=
  let srcPath := joinPath srcRoot f.relPath
  let destPath := joinPath dest f.relPath
  if s.isTmplNoopFile srcPath then removeNoopExtension destPath
  else if hasSuffix srcPath s.templateExt then s.removeTemplateExtension destPath
  else destPath

/-- The content one source file produces at its destination path: the raw
bytes for plain and frozen files, the rendered output for templates
(`none` when the template fails to parse or render). -/
def Stamper.producedContent (s : Stamper) (srcRoot : Str) (f : SrcFile) : Option Str :=
  let srcPath := joinPath srcRoot f.relPath
  if s.isTmplNoopFile srcPath then some f.content
  else if hasSuffix srcPath s.templateExt then
    match f.parse with
    | none => none
    | some root =>
        match render s.templateVars root with
        | .error _ => none
        | .ok out => some out
  else some f.content

/-!
Concrete fixtures used by the witness theorems: a `".tmpl"`-suffixed
stamper, a template tree referencing one variable, and small layers.
-/

/-- Fixture: the `".tmpl"` template extension. -/
def exTmplExt : Str := ".tmpl".toList

/-- Fixture: a one-action template tree referencing variable `v`. -/
def exFieldRef (v : Str) : Node :=
  .action (some (.pipe (.cons (.cmd (.cons (.field [v]) .nil)) .nil)))

/-- Fixture: a stamper with no variables provided. -/
def exStamperNoVars : Stamper := { templateVars := [], templateExt := exTmplExt }

/-- Fixture: a stamper providing `name`. -/
def exStamperName : Stamper :=
  { templateVars := [("name".toList, "alice".toList)], templateExt := exTmplExt }

/-- Fixture: a template file `a.tmpl` referencing `name`. -/
def exFileName : SrcFile :=
  { relPath := "a.tmpl".toList, content := "c".toList,
    parse := some (exFieldRef "name".toList) }

/-- Fixture: a single-file directory layer holding `a.tmpl`. -/
def exDirName : SrcDir := { name := "s".toList, info := .dir [] [exFileName] }

/-- Fixture: a plain file `a.txt` with content `"1"`. -/
def exPlain1 : SrcFile := { relPath := "a.txt".toList, content := "1".toList, parse := none }

/-- Fixture: a plain file `a.txt` with content `"2"`. -/
def exPlain2 : SrcFile := { relPath := "a.txt".toList, content := "2".toList, parse := none }

/-- Fixture: a frozen template `secret.yaml.tmpl.noop`. -/
def exFrozen : SrcFile :=
  { relPath := "secret.yaml.tmpl.noop".toList, content := "tok".toList, parse := none }

/-- Fixture: a malformed template `bad.tmpl` whose parse fails. -/
def exBadFile : SrcFile :=
  { relPath := "bad.tmpl".toList, content := "x".toList, parse := none }

/-!  Helper lemmas: strings and suffixes.  -/

theorem hasSuffix_iff {s suf : Str} : hasSuffix s suf = true ↔ suf <:+ s := by
  simp [hasSuffix]

theorem trimSuffix_append (pre suf : Str) : trimSuffix (pre ++ suf) suf = pre := by
  have h : hasSuffix (pre ++ suf) suf = true := hasSuffix_iff.mpr ⟨pre, rfl⟩
  rw [trimSuffix, if_pos h, List.length_append, Nat.add_sub_cancel, List.take_left]

theorem suffix_through_mid {suf b : Str} {c : Char} (hc : c ∉ suf) :
    ∀ a : Str, suf <:+ a ++ c :: b → suf <:+ b := by
  intro a
  induction a with
  | nil =>
      intro h
      rcases List.suffix_cons_iff.mp h with h | h
      · exact absurd (h ▸ List.mem_cons_self c b) hc
      · exact h
  | cons x a ih =>
      intro h
      rcases List.suffix_cons_iff.mp h with h | h
      · have : c ∈ suf := by
          rw [h]
          exact List.mem_cons_of_mem x (List.mem_append_right a (List.mem_cons_self c b))
        exact absurd this hc
      · exact ih h

/-!  Helper lemmas: the extractor.  -/

theorem walkNodeList_nil : walkNodeList .nil = [] := by
  rw [walkNodeList]

theorem walkNodeList_cons (n : Node) (rest : NodeList) :
    walkNodeList (.cons n rest) = walkNode n ++ walkNodeList rest := by
  rw [walkNodeList]

theorem mem_walkNodeList {v : Str} :
    ∀ {ns : NodeList}, v ∈ walkNodeList ns ↔ ∃ n ∈ ns.toList, v ∈ walkNode n
  | .nil => by simp [walkNodeList_nil, NodeList.toList]
  | .cons n rest => by
      rw [walkNodeList_cons, List.mem_append, @mem_walkNodeList v rest]
      simp [NodeList.toList]

theorem sizeOf_lt_of_mem_toList :
    ∀ {ns : NodeList} {n : Node}, n ∈ ns.toList → sizeOf n < sizeOf ns
  | .cons m rest, n, h => by
      rcases List.mem_cons.mp (by simpa [NodeList.toList] using h) with h | h
      · subst h; simp; omega
      · have := sizeOf_lt_of_mem_toList h
        simp; omega

theorem walkNode_ifn (p l e : Option Node) :
    walkNode (.ifn p l e) =
      (match p with | none => [] | some n => walkNode n) ++
      (match l with | none => [] | some n => walkNode n) ++
      (match e with | none => [] | some n => walkNode n) := by
  rw [walkNode.eq_def]

theorem walkNode_rangen (p l e : Option Node) :
    walkNode (.rangen p l e) =
      (match p with | none => [] | some n => walkNode n) ++
      (match l with | none => [] | some n => walkNode n) ++
      (match e with | none => [] | some n => walkNode n) := by
  rw [walkNode.eq_def]

theorem walkNode_withn (p l e : Option Node) :
    walkNode (.withn p l e) =
      (match p with | none => [] | some n => walkNode n) ++
      (match l with | none => [] | some n => walkNode n) ++
      (match e with | none => [] | some n => walkNode n) := by
  rw [walkNode.eq_def]

theorem walkNode_list (ns : NodeList) : walkNode (.list ns) = walkNodeList ns := by
  rw [walkNode]

theorem walkNode_pipe (cs : NodeList) : walkNode (.pipe cs) = walkNodeList cs := by
  rw [walkNode]

theorem walkNode_cmd (args : NodeList) : walkNode (.cmd args) = walkNodeList args := by
  rw [walkNode]

theorem mem_extractTemplateVars {v : Str} {root : Node} :
    v ∈ extractTemplateVars root ↔ v ∈ walkNode root := by
  rw [extractTemplateVars, (List.perm_insertionSort _ _).mem_iff, List.mem_dedup]

theorem nodup_extractTemplateVars (root : Node) : (extractTemplateVars root).Nodup :=
  (List.perm_insertionSort _ _).nodup_iff.mpr (List.nodup_dedup _)

theorem occurs_mem_walkNode {v : Str} {n : Node} (h : Occurs v n) : v ∈ walkNode n := by
  induction h with
  | fieldHead rest => simp [walkNode]
  | inList hmem _ ih =>
      rw [walkNode_list]
      exact mem_walkNodeList.mpr ⟨_, hmem, ih⟩
  | inAction _ ih => simpa [walkNode] using ih
  | inPipe hmem _ ih =>
      rw [walkNode_pipe]
      exact mem_walkNodeList.mpr ⟨_, hmem, ih⟩
  | inCmd hmem _ ih =>
      rw [walkNode_cmd]
      exact mem_walkNodeList.mpr ⟨_, hmem, ih⟩
  | inIfPipe _ ih =>
      rw [walkNode_ifn]; exact List.mem_append_left _ (List.mem_append_left _ ih)
  | inIfBody _ ih =>
      rw [walkNode_ifn]; exact List.mem_append_left _ (List.mem_append_right _ ih)
  | inIfAlt _ ih => rw [walkNode_ifn]; exact List.mem_append_right _ ih
  | inRangePipe _ ih =>
      rw [walkNode_rangen]; exact List.mem_append_left _ (List.mem_append_left _ ih)
  | inRangeBody _ ih =>
      rw [walkNode_rangen]; exact List.mem_append_left _ (List.mem_append_right _ ih)
  | inRangeAlt _ ih => rw [walkNode_rangen]; exact List.mem_append_right _ ih
  | inWithPipe _ ih =>
      rw [walkNode_withn]; exact List.mem_append_left _ (List.mem_append_left _ ih)
  | inWithBody _ ih =>
      rw [walkNode_withn]; exact List.mem_append_left _ (List.mem_append_right _ ih)
  | inWithAlt _ ih => rw [walkNode_withn]; exact List.mem_append_right _ ih
  | inTmpl _ ih => simpa [walkNode] using ih

theorem occurs_of_mem_walkNode {v : Str} {n : Node} (hmem : v ∈ walkNode n) : Occurs v n := by
  suffices H : ∀ (k : Nat) (m : Node), sizeOf m ≤ k → ∀ w : Str, w ∈ walkNode m → Occurs w m from
    H (sizeOf n) n le_rfl v hmem
  intro k
  induction k with
  | zero =>
      intro m hm
      exfalso
      cases m <;> simp at hm
  | succ k ih =>
      intro m hm w hw
      cases m with
      | text s => simp [walkNode] at hw
      | field idents =>
          cases idents with
          | nil => simp [walkNode] at hw
          | cons i tail =>
              simp [walkNode] at hw
              subst hw
              exact Occurs.fieldHead tail
      | list ns =>
          rw [walkNode_list] at hw
          obtain ⟨m', hm', hw'⟩ := mem_walkNodeList.mp hw
          have hsz : sizeOf m' ≤ k := by
            have h1 := sizeOf_lt_of_mem_toList hm'
            have h2 : sizeOf ns < sizeOf (Node.list ns) := by simp
            omega
          exact Occurs.inList hm' (ih m' hsz w hw')
      | action p =>
          cases p with
          | none => simp [walkNode] at hw
          | some q =>
              have hsz : sizeOf q ≤ k := by simp at hm; omega
              exact Occurs.inAction (ih q hsz w (by simpa [walkNode] using hw))
      | pipe cs =>
          rw [walkNode_pipe] at hw
          obtain ⟨m', hm', hw'⟩ := mem_walkNodeList.mp hw
          have hsz : sizeOf m' ≤ k := by
            have h1 := sizeOf_lt_of_mem_toList hm'
            have h2 : sizeOf cs < sizeOf (Node.pipe cs) := by simp
            omega
          exact Occurs.inPipe hm' (ih m' hsz w hw')
      | cmd args =>
          rw [walkNode_cmd] at hw
          obtain ⟨m', hm', hw'⟩ := mem_walkNodeList.mp hw
          have hsz : sizeOf m' ≤ k := by
            have h1 := sizeOf_lt_of_mem_toList hm'
            have h2 : sizeOf args < sizeOf (Node.cmd args) := by simp
            omega
          exact Occurs.inCmd hm' (ih m' hsz w hw')
      | ifn p l e =>
          rw [walkNode_ifn] at hw
          rcases List.mem_append.mp hw with hw | hw
          · rcases List.mem_append.mp hw with hw | hw
            · cases p with
              | none => simp at hw
              | some q =>
                  have hsz : sizeOf q ≤ k := by simp at hm; omega
                  exact Occurs.inIfPipe (ih q hsz w hw)
            · cases l with
              | none => simp at hw
              | some q =>
                  have hsz : sizeOf q ≤ k := by simp at hm; omega
                  exact Occurs.inIfBody (ih q hsz w hw)
          · cases e with
            | none => simp at hw
            | some q =>
                have hsz : sizeOf q ≤ k := by simp at hm; omega
                exact Occurs.inIfAlt (ih q hsz w hw)
      | rangen p l e =>
          rw [walkNode_rangen] at hw
          rcases List.mem_append.mp hw with hw | hw
          · rcases List.mem_append.mp hw with hw | hw
            · cases p with
              | none => simp at hw
              | some q =>
                  have hsz : sizeOf q ≤ k := by simp at hm; omega
                  exact Occurs.inRangePipe (ih q hsz w hw)
            · cases l with
              | none => simp at hw
              | some q =>
                  have hsz : sizeOf q ≤ k := by simp at hm; omega
                  exact Occurs.inRangeBody (ih q hsz w hw)
          · cases e with
            | none => simp at hw
            | some q =>
                have hsz : sizeOf q ≤ k := by simp at hm; omega
                exact Occurs.inRangeAlt (ih q hsz w hw)
      | withn p l e =>
          rw [walkNode_withn] at hw
          rcases List.mem_append.mp hw with hw | hw
          · rcases List.mem_append.mp hw with hw | hw
            · cases p with
              | none => simp at hw
              | some q =>
                  have hsz : sizeOf q ≤ k := by simp at hm; omega
                  exact Occurs.inWithPipe (ih q hsz w hw)
            · cases l with
              | none => simp at hw
              | some q =>
                  have hsz : sizeOf q ≤ k := by simp at hm; omega
                  exact Occurs.inWithBody (ih q hsz w hw)
          · cases e with
            | none => simp at hw
            | some q =>
                have hsz : sizeOf q ≤ k := by simp at hm; omega
                exact Occurs.inWithAlt (ih q hsz w hw)
      | tmpl p =>
          cases p with
          | none => simp [walkNode] at hw
          | some q =>
              have hsz : sizeOf q ≤ k := by simp at hm; omega
              exact Occurs.inTmpl (ih q hsz w (by simpa [walkNode] using hw))
      | other => simp [walkNode] at hw

/-!  Claim theorems: classifier and extractor.  -/

/-- C4.  Classifier definition and precedence: a path is classified
`frozenTemplate` exactly when it ends with the template extension followed
by `".noop"` (checked first), otherwise `template` exactly when it ends
with the template extension, otherwise `plain`; and `processFile` handles
each file by exactly this classification, so a path matching both suffixes
is always handled as a frozen template, never as a template. -/
theorem classifier_definition_and_precedence (s : Stamper) (path : Str) :
    (s.classify path = .frozenTemplate ↔
      hasSuffix path (s.templateExt ++ ".noop".toList) = true) ∧
    (s.classify path = .template ↔
      (hasSuffix path (s.templateExt ++ ".noop".toList) = false ∧
       hasSuffix path s.templateExt = true)) ∧
    (s.classify path = .plain ↔
      (hasSuffix path (s.templateExt ++ ".noop".toList) = false ∧
       hasSuffix path s.templateExt = false)) ∧
    (∀ destPath f fs, s.processFile path destPath f fs =
      match s.classify path with
      | .frozenTemplate => s.processTmplNoop f destPath fs
      | .template => s.processTemplate f destPath fs
      | .plain => s.copyFile f.content destPath fs) := by
  refine ⟨?_, ?_, ?_, ?_⟩
  · unfold Stamper.classify Stamper.isTmplNoopFile
    split
    · simp_all
    · split <;> simp_all
  · unfold Stamper.classify Stamper.isTmplNoopFile
    split
    · simp_all
    · split <;> simp_all
  · unfold Stamper.classify Stamper.isTmplNoopFile
    split
    · simp_all
    · split <;> simp_all
  · intro destPath f fs
    unfold Stamper.processFile Stamper.classify
    split <;> split <;> simp_all

/-- C6.  Branch-insensitive extraction: every variable reference occurring
anywhere in a template tree — in particular inside either arm of a
conditional, a loop body, or a scoped (`with`) block, taken or not — is
reported by the extractor. -/
theorem branch_insensitive_extraction {v : Str} {root : Node}
    (h : Occurs v root) : v ∈ extractTemplateVars root :=
  mem_extractTemplateVars.mpr (occurs_mem_walkNode h)

/-- C6 witness: a variable referenced only inside the alternate (untaken)
arm of a conditional is extracted. -/
theorem branch_insensitive_extraction_witness :
    "x".toList ∈ extractTemplateVars
      (.ifn (some (.pipe (.cons (.cmd (.cons (.field ["cond".toList]) .nil)) .nil))) none
        (some (.action (some (.pipe (.cons (.cmd (.cons (.field ["x".toList]) .nil)) .nil)))))) :=
  branch_insensitive_extraction
    (Occurs.inIfAlt (Occurs.inAction (Occurs.inPipe (List.mem_cons_self _ _)
      (Occurs.inCmd (List.mem_cons_self _ _) (Occurs.fieldHead [])))))

/-- C7.  Chained-reference truncation: the walk of a chained field
reference records exactly its first path segment, and a variable is
extracted from a tree precisely when it is the first path segment of some
field reference occurring in it — so deeper segments of a chained
reference never enter the extracted variable set. -/
theorem chained_reference_truncation :
    (∀ (a : Str) (rest : List Str), walkNode (.field (a :: rest)) = [a]) ∧
    (∀ (root : Node) (v : Str), v ∈ extractTemplateVars root ↔ Occurs v root) := by
  refine ⟨fun a rest => by simp [walkNode], fun root v => ?_⟩
  rw [mem_extractTemplateVars]
  exact ⟨fun h => occurs_of_mem_walkNode h, occurs_mem_walkNode⟩

/-- C10.  For every successfully parsed template tree the extractor
returns its variables sorted strictly increasing in lexicographic order,
without duplicates; extraction is a pure function of the parse tree, hence
deterministic. -/
theorem extraction_sorted_nodup_deterministic (root : Node) :
    List.Sorted (· < ·) (extractTemplateVars root) ∧
    (extractTemplateVars root).Nodup ∧
    (∀ root₂ : Node, root = root₂ → extractTemplateVars root = extractTemplateVars root₂) := by
  have hnd := nodup_extractTemplateVars root
  refine ⟨?_, hnd, fun root₂ h => h ▸ rfl⟩
  exact List.Sorted.lt_of_le (List.sorted_insertionSort _ _) hnd

/-- C10 witness: instantiation of the determinism component at a concrete
tree. -/
theorem extraction_sorted_nodup_deterministic_witness :
    extractTemplateVars (.field ["b".toList, "a".toList]) =
      extractTemplateVars (.field ["b".toList, "a".toList]) :=
  (extraction_sorted_nodup_deterministic (.field ["b".toList, "a".toList])).2.2 _ rfl


/-!  Helper lemmas: the variable-usage index and validation.  -/

theorem lookup_cons_self {β : Type} (a : Str) (b : β) (rest : List (Str × β)) :
    List.lookup a ((a, b) :: rest) = some b := by
  simp [List.lookup]

theorem lookup_cons_ne {β : Type} {k a : Str} (h : ¬ k = a) (b : β) (rest : List (Str × β)) :
    List.lookup k ((a, b) :: rest) = List.lookup k rest := by
  rw [List.lookup_cons, show (k == a) = false by simp [h]]

theorem lookup_addUsage (u : Usage) (v p k : Str) :
    (addUsage u v p).lookup k =
      if k = v then some ((u.lookup k).getD [] ++ [p]) else u.lookup k := by
  induction u with
  | nil =>
      by_cases h : k = v
      · subst h; simp [addUsage, lookup_cons_self]
      · simp [addUsage, lookup_cons_ne h, h]
  | cons kv rest ih =>
      obtain ⟨a, ps⟩ := kv
      by_cases hav : a = v
      · subst hav
        by_cases hka : k = a
        · subst hka; simp [addUsage, lookup_cons_self]
        · simp [addUsage, lookup_cons_ne hka, hka]
      · by_cases hka : k = a
        · subst hka
          simp [addUsage, hav, lookup_cons_self]
        · simp [addUsage, hav, lookup_cons_ne hka, ih]

theorem augment_nil_right (o : Option (List Str)) : augment o [] = o := by
  cases o with
  | none => rfl
  | some ps => simp [augment]

theorem augment_append (o : Option (List Str)) (a b : List Str) :
    augment (augment o a) b = augment o (a ++ b) := by
  cases o <;> cases a <;> cases b <;> simp [augment]

theorem lookup_addVars (u : Usage) (vs : List Str) (p k : Str) (hnd : vs.Nodup) :
    (addVars u vs p).lookup k =
      if k ∈ vs then some ((u.lookup k).getD [] ++ [p]) else u.lookup k := by
  induction vs generalizing u with
  | nil => simp [addVars]
  | cons v vs ih =>
      have hv : v ∉ vs := (List.nodup_cons.mp hnd).1
      have hnd' : vs.Nodup := (List.nodup_cons.mp hnd).2
      show (addVars (addUsage u v p) vs p).lookup k = _
      rw [ih (addUsage u v p) hnd']
      simp only [lookup_addUsage]
      by_cases hkv : k = v
      · subst hkv
        have hknv : k ∉ vs := hv
        simp [hknv]
      · by_cases hkvs : k ∈ vs <;> simp [hkv, hkvs]

theorem lookup_collectFileVars (s : Stamper) (root : Str) (f : SrcFile) (u : Usage) (k : Str) :
    (s.collectFileVars root f u).lookup k =
      augment (u.lookup k) (if s.fileRefs root f k then [f.relPath] else []) := by
  by_cases hn : s.isTmplNoopFile (joinPath root f.relPath) = true
  · simp [Stamper.collectFileVars, Stamper.fileRefs, Stamper.fileInScope, hn, augment_nil_right]
  · by_cases hs : hasSuffix (joinPath root f.relPath) s.templateExt = true
    · cases hp : f.parse with
      | none =>
          simp [Stamper.collectFileVars, Stamper.fileRefs, Stamper.fileInScope, hn, hs, hp,
                augment_nil_right]
      | some t =>
          have hgoal : s.collectFileVars root f u = addVars u (extractTemplateVars t) f.relPath := by
            simp [Stamper.collectFileVars, hn, hs, hp]
          rw [hgoal, lookup_addVars _ _ _ _ (nodup_extractTemplateVars t)]
          by_cases hk : k ∈ extractTemplateVars t
          · simp [Stamper.fileRefs, Stamper.fileInScope, hn, hs, hp, hk, augment]
          · simp [Stamper.fileRefs, Stamper.fileInScope, hn, hs, hp, hk, augment_nil_right]
    · simp [Stamper.collectFileVars, Stamper.fileRefs, Stamper.fileInScope, hn, hs,
            augment_nil_right]

theorem dirRefs_nil (s : Stamper) (root : Str) (k : Str) : s.dirRefs root [] k = [] := rfl

theorem dirRefs_cons (s : Stamper) (root : Str) (f : SrcFile) (fs : List SrcFile) (k : Str) :
    s.dirRefs root (f :: fs) k =
      (if s.fileRefs root f k then [f.relPath] else []) ++ s.dirRefs root fs k := by
  simp only [Stamper.dirRefs, List.filterMap_cons]
  split <;> simp_all

theorem lookup_foldl_collectFileVars (s : Stamper) (root : Str) :
    ∀ (files : List SrcFile) (u : Usage) (k : Str),
    (files.foldl (fun u f => s.collectFileVars root f u) u).lookup k =
      augment (u.lookup k) (s.dirRefs root files k) := by
  intro files
  induction files with
  | nil => intro u k; simp [dirRefs_nil, augment_nil_right]
  | cons f fs ih =>
      intro u k
      rw [List.foldl_cons, ih, lookup_collectFileVars, augment_append, dirRefs_cons]

theorem references_nil (s : Stamper) (v : Str) : s.references [] v = [] := rfl

theorem references_cons (s : Stamper) (d : SrcDir) (ds : List SrcDir) (v : Str) :
    s.references (d :: ds) v =
      (match d.info with
        | .dir _ files => s.dirRefs d.name files v
        | _ => []) ++ s.references ds v := by
  simp [Stamper.references]

theorem collectAll_isDir (s : Stamper) :
    ∀ (dirs : List SrcDir) (u : Usage), (∀ d ∈ dirs, d.isDirLayer) →
    ∃ U, s.collectAll dirs u = .ok U ∧
      ∀ k, U.lookup k = augment (u.lookup k) (s.references dirs k) := by
  intro dirs
  induction dirs with
  | nil =>
      intro u _
      exact ⟨u, rfl, fun k => by simp [references_nil, augment_nil_right]⟩
  | cons d ds ih =>
      intro u h
      obtain ⟨dd, files, hinfo⟩ := h d (List.mem_cons_self d ds)
      obtain ⟨U, hU, hchar⟩ :=
        ih (files.foldl (fun u f => s.collectFileVars d.name f u) u)
          (fun d' hd' => h d' (List.mem_cons_of_mem d hd'))
      refine ⟨U, ?_, fun k => ?_⟩
      · simp [Stamper.collectAll, Stamper.collectTemplateVars, hinfo, hU]
      · rw [hchar k, lookup_foldl_collectFileVars, augment_append, references_cons, hinfo]

theorem lookup_filter_isNone (tv : List (Str × Str)) :
    ∀ (u : Usage) (k : Str),
    (u.filter fun kv => (tv.lookup kv.1).isNone).lookup k =
      if (tv.lookup k).isNone then u.lookup k else none := by
  intro u
  induction u with
  | nil => intro k; simp
  | cons kv rest ih =>
      intro k
      obtain ⟨a, ps⟩ := kv
      by_cases hq : (tv.lookup a).isNone = true
      · by_cases hka : k = a
        · subst hka; simp [List.filter_cons, hq, lookup_cons_self]
        · simp [List.filter_cons, hq, lookup_cons_ne hka, ih]
      · by_cases hka : k = a
        · subst hka; simp [List.filter_cons, hq, ih]
        · simp [List.filter_cons, hq, ih, lookup_cons_ne hka]

theorem lookup_isSome_of_mem :
    ∀ {u : Usage} {kv : Str × List Str}, kv ∈ u → (u.lookup kv.1).isSome := by
  intro u
  induction u with
  | nil => intro kv h; simp at h
  | cons a rest ih =>
      intro kv h
      obtain ⟨b, ps⟩ := a
      rcases List.mem_cons.mp h with h | h
      · subst h; simp [lookup_cons_self]
      · by_cases hk : kv.1 = b
        · rw [hk, lookup_cons_self]; rfl
        · rw [lookup_cons_ne hk]; exact ih h

theorem mem_of_lookup_eq_some :
    ∀ {u : Usage} {k : Str} {ps : List Str}, u.lookup k = some ps → (k, ps) ∈ u := by
  intro u
  induction u with
  | nil => intro k ps h; simp [List.lookup] at h
  | cons a rest ih =>
      intro k ps h
      obtain ⟨b, qs⟩ := a
      by_cases hk : k = b
      · subst hk
        rw [lookup_cons_self] at h
        simp [(Option.some.injEq _ _).mp h]
      · rw [lookup_cons_ne hk] at h
        exact List.mem_cons_of_mem _ (ih h)

theorem fileRefs_iff (s : Stamper) (root : Str) (f : SrcFile) (v : Str) :
    s.fileRefs root f v = true ↔
      (s.fileInScope (joinPath root f.relPath) = true ∧
        ∃ t, f.parse = some t ∧ v ∈ extractTemplateVars t) := by
  unfold Stamper.fileRefs
  cases hp : f.parse <;> simp [hp, Bool.and_eq_true]

theorem references_ne_nil_iff (s : Stamper) (dirs : List SrcDir) (v : Str) :
    s.references dirs v ≠ [] ↔
      ∃ d ∈ dirs, ∃ dd files, d.info = .dir dd files ∧
        ∃ f ∈ files, s.fileRefs d.name f v = true := by
  constructor
  · intro h
    obtain ⟨x, hx⟩ := List.exists_mem_of_ne_nil _ h
    obtain ⟨d, hd, hx⟩ := List.mem_flatMap.mp hx
    refine ⟨d, hd, ?_⟩
    cases hinfo : d.info with
    | dir dd files =>
        rw [hinfo] at hx
        obtain ⟨f, hf, heq⟩ := List.mem_filterMap.mp hx
        refine ⟨dd, files, rfl, f, hf, ?_⟩
        by_cases hr : s.fileRefs d.name f v = true
        · exact hr
        · simp [hr] at heq
    | nondirFile c p => rw [hinfo] at hx; simp at hx
    | missing => rw [hinfo] at hx; simp at hx
  · rintro ⟨d, hd, dd, files, hinfo, f, hf, href⟩
    have : f.relPath ∈ s.references dirs v := by
      refine List.mem_flatMap.mpr ⟨d, hd, ?_⟩
      rw [hinfo]
      exact List.mem_filterMap.mpr ⟨f, hf, by simp [href]⟩
    exact List.ne_nil_of_mem this

/-!  Claim theorem: validation coverage.  -/

/-- C1.  Validation iff-coverage: over any list of existing directory
layers, `validateMultipleTemplateVars` succeeds exactly when, for every
in-scope parseable template file of every layer, every extracted variable
is provided; every failure is a `ValidationError`; and the error's map
sends exactly the missing variable names to the layer-relative paths of
every template referencing them. -/
theorem validation_iff_coverage (s : Stamper) (dirs : List SrcDir)
    (hAll : ∀ d ∈ dirs, d.isDirLayer) :
    (s.validateMultipleTemplateVars dirs = .ok () ↔
      ∀ d ∈ dirs, ∀ dd files, d.info = .dir dd files →
        ∀ f ∈ files, s.fileInScope (joinPath d.name f.relPath) = true →
          ∀ t, f.parse = some t →
            ∀ v ∈ extractTemplateVars t, (s.templateVars.lookup v).isSome) ∧
    (∀ e, s.validateMultipleTemplateVars dirs = .error e → ∃ m, e = .validation m) ∧
    (∀ m, s.validateMultipleTemplateVars dirs = .error (.validation m) →
      ∀ v ps, m.lookup v = some ps ↔
        (s.templateVars.lookup v = none ∧ s.references dirs v ≠ [] ∧
          ps = s.references dirs v)) := by
  obtain ⟨U, hU, hchar⟩ := collectAll_isDir s dirs [] hAll
  have hlookupU : ∀ k, U.lookup k =
      if s.references dirs k = [] then none else some (s.references dirs k) := by
    intro k
    rw [hchar k]
    cases hr : s.references dirs k with
    | nil => rfl
    | cons x xs => simp [augment]
  have hcov : (U.filter fun kv => (s.templateVars.lookup kv.1).isNone) = [] ↔
      ∀ v, s.references dirs v ≠ [] → (s.templateVars.lookup v).isSome := by
    rw [List.filter_eq_nil_iff]
    constructor
    · intro h v hv
      have hl : U.lookup v = some (s.references dirs v) := by rw [hlookupU]; simp [hv]
      have hm := mem_of_lookup_eq_some hl
      have := h _ hm
      simpa [Option.isNone_iff_eq_none, Option.isSome_iff_ne_none] using this
    · intro h kv hkv
      have hsome := lookup_isSome_of_mem hkv
      have hne : s.references dirs kv.1 ≠ [] := by
        intro hnil
        rw [hlookupU kv.1, if_pos hnil] at hsome
        simp at hsome
      have := h kv.1 hne
      simp [Option.isNone_iff_eq_none, Option.isSome_iff_ne_none] at this ⊢
      exact this
  have hcov2 : (∀ v, s.references dirs v ≠ [] → (s.templateVars.lookup v).isSome) ↔
      (∀ d ∈ dirs, ∀ dd files, d.info = .dir dd files →
        ∀ f ∈ files, s.fileInScope (joinPath d.name f.relPath) = true →
          ∀ t, f.parse = some t →
            ∀ v ∈ extractTemplateVars t, (s.templateVars.lookup v).isSome) := by
    constructor
    · intro h d hd dd files hinfo f hf hscope t ht v hv
      refine h v ((references_ne_nil_iff s dirs v).mpr ?_)
      exact ⟨d, hd, dd, files, hinfo, f, hf,
        (fileRefs_iff s d.name f v).mpr ⟨hscope, t, ht, hv⟩⟩
    · intro h v hv
      obtain ⟨d, hd, dd, files, hinfo, f, hf, href⟩ :=
        (references_ne_nil_iff s dirs v).mp hv
      obtain ⟨hscope, t, ht, hvt⟩ := (fileRefs_iff s d.name f v).mp href
      exact h d hd dd files hinfo f hf hscope t ht v hvt
  refine ⟨?_, ?_, ?_⟩
  · rw [Stamper.validateMultipleTemplateVars, hU]
    constructor
    · intro hok
      by_cases hmv : (U.filter fun kv => (s.templateVars.lookup kv.1).isNone) = []
      · exact hcov2.mp (hcov.mp hmv)
      · simp [hmv] at hok
    · intro hP
      have := hcov.mpr (hcov2.mpr hP)
      simp [this]
  · intro e he
    rw [Stamper.validateMultipleTemplateVars, hU] at he
    by_cases hmv : (U.filter fun kv => (s.templateVars.lookup kv.1).isNone) = []
    · simp [hmv] at he
    · simp only [hmv, if_neg hmv, if_false] at he
      exact ⟨_, (Except.error.injEq _ _).mp he |>.symm⟩
  · intro m hm v ps
    rw [Stamper.validateMultipleTemplateVars, hU] at hm
    by_cases hmv : (U.filter fun kv => (s.templateVars.lookup kv.1).isNone) = []
    · simp [hmv] at hm
    · simp only [hmv, if_neg hmv, if_false] at hm
      have hmeq : m = U.filter fun kv => (s.templateVars.lookup kv.1).isNone := by
        have h2 := (Except.error.injEq _ _).mp hm
        exact (StampError.validation.injEq _ _).mp h2.symm
      subst hmeq
      rw [lookup_filter_isNone, hlookupU]
      by_cases hq : (s.templateVars.lookup v).isNone
      · cases hr : s.references dirs v with
        | nil => simp [hq, hr]
        | cons x xs =>
            simp only [hq, hr, if_true, if_pos]
            constructor
            · intro h
              refine ⟨by simpa [Option.isNone_iff_eq_none] using hq, by simp, ?_⟩
              exact (Option.some.injEq _ _).mp h |>.symm
            · rintro ⟨h1, h2, h3⟩
              rw [h3]
              simp
      · have : ¬ s.templateVars.lookup v = none := by
          simpa [Option.isNone_iff_eq_none] using hq
        simp [hq, this]

/-- C1 witness: a layer whose template references `name` with no variables
provided fails validation, and the error maps `name` to the referencing
template path. -/
theorem validation_iff_coverage_witness :
    ([("name".toList, ["a.tmpl".toList])] : Usage).lookup "name".toList =
      some ["a.tmpl".toList] := by
  have h := validation_iff_coverage exStamperNoVars [exDirName]
    (fun d hd => by
      rw [List.mem_singleton.mp hd]
      exact ⟨[], [exFileName], rfl⟩)
  exact ((h.2.2 [("name".toList, ["a.tmpl".toList])] rfl)
    "name".toList ["a.tmpl".toList]).mpr ⟨rfl, by decide, by decide⟩

/-!  Helper lemmas: the destination file system and file processing.  -/

theorem lookupFile_writeFile (fs : FS) (p c q : Str) :
    (fs.writeFile p c).lookupFile q = if q = p then some c else fs.lookupFile q := by
  by_cases h : q = p
  · subst h; simp [FS.writeFile, FS.lookupFile, lookup_cons_self]
  · simp [FS.writeFile, FS.lookupFile, lookup_cons_ne h, h]

theorem dirs_writeFile (fs : FS) (p c : Str) : (fs.writeFile p c).dirs = fs.dirs := rfl

theorem files_mkdirAll (fs : FS) (p : Str) : (fs.mkdirAll p).files = fs.files := by
  unfold FS.mkdirAll
  split <;> rfl

theorem lookupFile_mkdirAll (fs : FS) (p q : Str) :
    (fs.mkdirAll p).lookupFile q = fs.lookupFile q := by
  unfold FS.lookupFile
  rw [files_mkdirAll]

theorem mem_dirs_mkdirAll_self (fs : FS) (p : Str) : p ∈ (fs.mkdirAll p).dirs := by
  unfold FS.mkdirAll
  split
  · assumption
  · exact List.mem_cons_self _ _

theorem mem_dirs_mkdirAll_of_mem (fs : FS) (p : Str) {x : Str} (h : x ∈ fs.dirs) :
    x ∈ (fs.mkdirAll p).dirs := by
  unfold FS.mkdirAll
  split
  · exact h
  · exact List.mem_cons_of_mem _ h

theorem mem_dirs_foldl_mkdirAll_of_mem (dest : Str) :
    ∀ (ds : List Str) (fs : FS) {x : Str}, x ∈ fs.dirs →
      x ∈ (ds.foldl (fun a d => a.mkdirAll (joinPath dest d)) fs).dirs := by
  intro ds
  induction ds with
  | nil => intro fs x h; exact h
  | cons d ds ih =>
      intro fs x h
      exact ih _ (mem_dirs_mkdirAll_of_mem _ _ h)

theorem mem_dirs_foldl_mkdirAll (dest : Str) :
    ∀ (ds : List Str) (fs : FS) {d : Str}, d ∈ ds →
      joinPath dest d ∈ (ds.foldl (fun a d => a.mkdirAll (joinPath dest d)) fs).dirs := by
  intro ds
  induction ds with
  | nil => intro fs d h; simp at h
  | cons d0 ds ih =>
      intro fs d h
      rcases List.mem_cons.mp h with h | h
      · subst h
        exact mem_dirs_foldl_mkdirAll_of_mem dest ds _ (mem_dirs_mkdirAll_self _ _)
      · exact ih _ h

theorem processFile_produced_some (s : Stamper) (root dest : Str) (f : SrcFile) (fs : FS)
    {c : Str} (h : s.producedContent root f = some c) :
    s.processFile (joinPath root f.relPath) (joinPath dest f.relPath) f fs =
      (none, fs.writeFile (s.destPathOf root dest f) c) := by
  by_cases hn : s.isTmplNoopFile (joinPath root f.relPath) = true
  · simp [Stamper.producedContent, hn] at h
    simp [Stamper.processFile, Stamper.processTmplNoop, Stamper.copyFile,
          Stamper.destPathOf, hn, h]
  · by_cases hs : hasSuffix (joinPath root f.relPath) s.templateExt = true
    · cases hp : f.parse with
      | none => simp [Stamper.producedContent, hn, hs, hp] at h
      | some t =>
          cases hr : render s.templateVars t with
          | error e => simp [Stamper.producedContent, hn, hs, hp, hr] at h
          | ok out =>
              simp [Stamper.producedContent, hn, hs, hp, hr] at h
              simp [Stamper.processFile, Stamper.processTemplate, Stamper.destPathOf,
                    hn, hs, hp, hr, h]
    · simp [Stamper.producedContent, hn, hs] at h
      simp [Stamper.processFile, Stamper.copyFile, Stamper.destPathOf, hn, hs, h]

theorem processFile_fst_none_iff (s : Stamper) (root dest : Str) (f : SrcFile) (fs : FS) :
    (s.processFile (joinPath root f.relPath) (joinPath dest f.relPath) f fs).1 = none ↔
      (s.producedContent root f).isSome := by
  by_cases hn : s.isTmplNoopFile (joinPath root f.relPath) = true
  · simp [Stamper.processFile, Stamper.producedContent, hn, Stamper.processTmplNoop,
          Stamper.copyFile]
  · by_cases hs : hasSuffix (joinPath root f.relPath) s.templateExt = true
    · cases hp : f.parse with
      | none =>
          simp [Stamper.processFile, Stamper.producedContent, Stamper.processTemplate,
                hn, hs, hp]
      | some t =>
          cases hr : render s.templateVars t with
          | error e =>
              simp [Stamper.processFile, Stamper.producedContent, Stamper.processTemplate,
                    hn, hs, hp, hr]
          | ok out =>
              simp [Stamper.processFile, Stamper.producedContent, Stamper.processTemplate,
                    hn, hs, hp, hr]
    · simp [Stamper.processFile, Stamper.producedContent, hn, hs, Stamper.copyFile]

theorem dirs_processFile (s : Stamper) (sp dp : Str) (f : SrcFile) (fs : FS) :
    (s.processFile sp dp f fs).2.dirs = fs.dirs := by
  by_cases hn : s.isTmplNoopFile sp = true
  · simp [Stamper.processFile, Stamper.processTmplNoop, Stamper.copyFile, hn, FS.writeFile]
  · by_cases hs : hasSuffix sp s.templateExt = true
    · cases hp : f.parse with
      | none =>
          simp [Stamper.processFile, Stamper.processTemplate, hn, hs, hp]
      | some t =>
          cases hr : render s.templateVars t <;>
            simp [Stamper.processFile, Stamper.processTemplate, hn, hs, hp, hr, FS.writeFile]
    · simp [Stamper.processFile, Stamper.copyFile, hn, hs, FS.writeFile]

theorem processDirFiles_dirs (s : Stamper) (root dest : Str) :
    ∀ (files : List SrcFile) (fs : FS),
      (s.processDirFiles root dest files fs).2.dirs = fs.dirs := by
  intro files
  induction files with
  | nil => intro fs; rfl
  | cons f rest ih =>
      intro fs
      rw [Stamper.processDirFiles]
      cases hpf : s.processFile (joinPath root f.relPath) (joinPath dest f.relPath) f fs with
      | mk e fs1 =>
          have hdirs : fs1.dirs = fs.dirs := by
            have hh := dirs_processFile s (joinPath root f.relPath) (joinPath dest f.relPath) f fs
            rw [hpf] at hh
            exact hh
          cases e with
          | some e0 => simpa using hdirs
          | none => simpa [ih fs1] using hdirs

theorem processDirFiles_lookup (s : Stamper) (root dest : Str) :
    ∀ (files : List SrcFile) (fs fs' : FS),
      s.processDirFiles root dest files fs = (none, fs') →
      ∀ p : Str, fs'.lookupFile p =
        match files.reverse.find? (fun g => s.destPathOf root dest g == p) with
        | some g => s.producedContent root g
        | none => fs.lookupFile p := by
  intro files
  induction files with
  | nil =>
      intro fs fs' h p
      simp only [Stamper.processDirFiles] at h
      simp [((Prod.mk.injEq _ _ _ _).mp h).2.symm]
  | cons f rest ih =>
      intro fs fs' h p
      rw [Stamper.processDirFiles] at h
      cases hpf : s.processFile (joinPath root f.relPath) (joinPath dest f.relPath) f fs with
      | mk e fs1 =>
          rw [hpf] at h
          cases e with
          | some e0 => simp at h
          | none =>
              have hps : (s.producedContent root f).isSome := by
                have hh := processFile_fst_none_iff s root dest f fs
                rw [hpf] at hh
                exact hh.mp rfl
              obtain ⟨c, hc⟩ := Option.isSome_iff_exists.mp hps
              have heq := processFile_produced_some s root dest f fs hc
              rw [hpf] at heq
              have hfs1 : fs1 = fs.writeFile (s.destPathOf root dest f) c :=
                ((Prod.mk.injEq _ _ _ _).mp heq).2
              rw [ih fs1 fs' h p, List.reverse_cons, List.find?_append]
              cases hfind : rest.reverse.find? (fun g => s.destPathOf root dest g == p) with
              | some g => simp
              | none =>
                  rw [hfs1]
                  by_cases hd : s.destPathOf root dest f = p
                  · rw [List.find?]
                    rw [show (s.destPathOf root dest f == p) = true by simp [hd]]
                    simp [Option.or, lookupFile_writeFile, hd, hc]
                  · rw [List.find?]
                    rw [show (s.destPathOf root dest f == p) = false by simp [hd]]
                    simp only [Option.or, lookupFile_writeFile]
                    rw [if_neg (fun hh : p = s.destPathOf root dest f => hd hh.symm)]
                    simp [List.find?]

theorem processDirFiles_produced (s : Stamper) (root dest : Str) :
    ∀ (files : List SrcFile) (fs fs' : FS),
      s.processDirFiles root dest files fs = (none, fs') →
      ∀ f ∈ files, (s.producedContent root f).isSome := by
  intro files
  induction files with
  | nil => intro fs fs' h f hf; simp at hf
  | cons g rest ih =>
      intro fs fs' h f hf
      rw [Stamper.processDirFiles] at h
      cases hpf : s.processFile (joinPath root g.relPath) (joinPath dest g.relPath) g fs with
      | mk e fs1 =>
          rw [hpf] at h
          cases e with
          | some e0 => simp at h
          | none =>
              rcases List.mem_cons.mp hf with hfg | hfr
              · subst hfg
                have hh := processFile_fst_none_iff s root dest f fs
                rw [hpf] at hh
                exact hh.mp rfl
              · exact ih fs1 fs' h f hfr

theorem processTemplateDir_eq (s : Stamper) (root : Str) (ds : List Str)
    (files : List SrcFile) (dest : Str) (fs : FS) :
    s.processTemplateDir root ds files dest fs =
      s.processDirFiles root dest files
        (ds.foldl (fun a d => a.mkdirAll (joinPath dest d))
          (fs.mkdirAll (joinPath dest ['.']))) := rfl

theorem processTemplateDir_dirs_mono (s : Stamper) (root : Str) (ds : List Str)
    (files : List SrcFile) (dest : Str) (fs : FS) {x : Str} (h : x ∈ fs.dirs) :
    x ∈ (s.processTemplateDir root ds files dest fs).2.dirs := by
  rw [processTemplateDir_eq, processDirFiles_dirs]
  exact mem_dirs_foldl_mkdirAll_of_mem dest ds _ (mem_dirs_mkdirAll_of_mem _ _ h)

theorem processTemplateDir_dirs_layer (s : Stamper) (root : Str) (ds : List Str)
    (files : List SrcFile) (dest : Str) (fs : FS) {d : Str} (h : d ∈ ds) :
    joinPath dest d ∈ (s.processTemplateDir root ds files dest fs).2.dirs := by
  rw [processTemplateDir_eq, processDirFiles_dirs]
  exact mem_dirs_foldl_mkdirAll dest ds _ h

theorem find?_eq_some_of_unique {α : Type} (pred : α → Bool) :
    ∀ (l : List α) (a : α), a ∈ l → pred a = true →
      (∀ b ∈ l, pred b = true → b = a) → l.find? pred = some a := by
  intro l
  induction l with
  | nil => intro a ha _ _; simp at ha
  | cons x xs ih =>
      intro a ha hpa huni
      by_cases hx : pred x = true
      · have hxa : x = a := huni x (List.mem_cons_self _ _) hx
        rw [List.find?, hx, hxa]
      · have hax : ¬ a = x := fun hh => hx (hh ▸ hpa)
        have ha' : a ∈ xs := by
          rcases List.mem_cons.mp ha with hh | hh
          · exact absurd hh hax
          · exact hh
        have hx' : pred x = false := by simp [hx]
        rw [List.find?, hx']
        exact ih a ha' hpa (fun b hb hpb => huni b (List.mem_cons_of_mem _ hb) hpb)

/-!  Claim theorems: atomic validation failure and layering.  -/

/-- C2.  Pre-write atomicity of validation: whenever validation fails with
a `ValidationError`, `executeMultiple` returns exactly that error with the
destination file system untouched — the destination root has not been
created and no output file has been written. -/
theorem validation_failure_pre_write (s : Stamper) (dirs : List SrcDir) (dest : Str)
    (fs : FS) (m : List (Str × List Str))
    (hv : s.validateMultipleTemplateVars dirs = .error (.validation m)) :
    s.executeMultiple dirs dest fs = (some (.validation m), fs) := by
  cases dirs with
  | nil => simp [Stamper.validateMultipleTemplateVars, Stamper.collectAll] at hv
  | cons d ds => simp [Stamper.executeMultiple, hv]

/-- C2 witness: a failing validation leaves the file system untouched. -/
theorem validation_failure_pre_write_witness :
    exStamperNoVars.executeMultiple [exDirName] "dst".toList ⟨[], []⟩ =
      (some (.validation [("name".toList, ["a.tmpl".toList])]), ⟨[], []⟩) :=
  validation_failure_pre_write exStamperNoVars [exDirName] "dst".toList ⟨[], []⟩ _ rfl



/-- C3.  Last-writer-wins layering: when applying two directory layers in
order succeeds and both produce the same destination path `p` (the later
layer by exactly one of its files), the destination holds the content
produced from the later layer's file — its plain copy, frozen copy, or
rendered output — while the directories of both layers are all present in
the destination (merged additively). -/
theorem last_writer_wins (s : Stamper) (n1 n2 dest : Str) (ds1 ds2 : List Str)
    (fl1 fl2 : List SrcFile) (f1 f2 : SrcFile) (fs fs' : FS) (p : Str)
    (h1 : f1 ∈ fl1) (hp1 : s.destPathOf n1 dest f1 = p)
    (h2 : f2 ∈ fl2) (hp2 : s.destPathOf n2 dest f2 = p)
    (huniq : ∀ g ∈ fl2, s.destPathOf n2 dest g = p → g = f2)
    (hrun : s.executeMultiple [⟨n1, .dir ds1 fl1⟩, ⟨n2, .dir ds2 fl2⟩] dest fs =
      (none, fs')) :
    fs'.lookupFile p = s.producedContent n2 f2 ∧
    (s.producedContent n2 f2).isSome ∧
    (∀ dr ∈ ds1, joinPath dest dr ∈ fs'.dirs) ∧
    (∀ dr ∈ ds2, joinPath dest dr ∈ fs'.dirs) := by
  simp only [Stamper.executeMultiple, List.isEmpty_cons, Bool.false_eq_true, if_false] at hrun
  cases hv : s.validateMultipleTemplateVars [⟨n1, .dir ds1 fl1⟩, ⟨n2, .dir ds2 fl2⟩] with
  | error e => rw [hv] at hrun; simp at hrun
  | ok u =>
      rw [hv] at hrun
      simp only [Stamper.processLayers] at hrun
      cases hA : s.processTemplateDir n1 ds1 fl1 dest (fs.mkdirAll dest) with
      | mk eA fsA =>
          rw [hA] at hrun
          cases eA with
          | some e => simp at hrun
          | none =>
              simp only [Stamper.processLayers] at hrun
              cases hB : s.processTemplateDir n2 ds2 fl2 dest fsA with
              | mk eB fsB =>
                  rw [hB] at hrun
                  cases eB with
                  | some e => simp at hrun
                  | none =>
                      simp only [Stamper.processLayers] at hrun
                      have hfs' : fs' = fsB := (((Prod.mk.injEq _ _ _ _).mp hrun).2).symm
                      subst hfs'
                      rw [processTemplateDir_eq] at hB
                      have hfind :
                          fl2.reverse.find? (fun g => s.destPathOf n2 dest g == p) =
                            some f2 := by
                        refine find?_eq_some_of_unique _ _ _ (List.mem_reverse.mpr h2)
                          (by simp [hp2]) ?_
                        intro b hb hpb
                        exact huniq b (List.mem_reverse.mp hb) (by simpa using hpb)
                      refine ⟨?_, ?_, ?_, ?_⟩
                      · rw [processDirFiles_lookup s n2 dest fl2 _ _ hB p, hfind]
                      · exact processDirFiles_produced s n2 dest fl2 _ _ hB f2 h2
                      · intro dr hdr
                        have hmem := processTemplateDir_dirs_layer s n1 ds1 fl1 dest
                          (fs.mkdirAll dest) hdr
                        rw [hA] at hmem
                        have hmem2 := processTemplateDir_dirs_mono s n2 ds2 fl2 dest fsA hmem
                        rw [processTemplateDir_eq, hB] at hmem2
                        exact hmem2
                      · intro dr hdr
                        have hmem := processTemplateDir_dirs_layer s n2 ds2 fl2 dest fsA hdr
                        rw [processTemplateDir_eq, hB] at hmem
                        exact hmem

/-- C3 witness: two plain layers both producing `a.txt`; the destination
holds the second layer's content. -/
theorem last_writer_wins_witness :
    (⟨[("dst/a.txt".toList, "2".toList), ("dst/a.txt".toList, "1".toList)],
      ["dst".toList]⟩ : FS).lookupFile "dst/a.txt".toList = some "2".toList := by
  have h := last_writer_wins exStamperNoVars "s1".toList "s2".toList "dst".toList [] []
    [exPlain1] [exPlain2] exPlain1 exPlain2 ⟨[], []⟩
    ⟨[("dst/a.txt".toList, "2".toList), ("dst/a.txt".toList, "1".toList)], ["dst".toList]⟩
    "dst/a.txt".toList
    (List.mem_singleton.mpr rfl) (by decide)
    (List.mem_singleton.mpr rfl) (by decide)
    (fun g hg _ => List.mem_singleton.mp hg)
    rfl
  exact h.1.trans rfl


/-- C5.  Frozen-template semantics: a file whose walked source path is
classified frozen (ends with the template extension plus `".noop"`) is
copied byte-for-byte with no template expansion, at the destination path
with exactly the trailing `".noop"` marker removed and the template
extension kept; and it is excluded from validation scanning — so applying
with an empty variable set still succeeds for such files.  The extension is
assumed to contain no path separator and the file is a proper walk entry
(its layer-relative path is not `"."`). -/
theorem frozen_template_semantics (s : Stamper) (srcRoot dest : Str) (f : SrcFile)
    (fs : FS) (u : Usage)
    (hsep : ('/' : Char) ∉ s.templateExt)
    (hrel : f.relPath ≠ ['.'])
    (hfz : s.isTmplNoopFile (joinPath srcRoot f.relPath) = true) :
    s.processFile (joinPath srcRoot f.relPath) (joinPath dest f.relPath) f fs =
      (none, fs.writeFile (removeNoopExtension (joinPath dest f.relPath)) f.content) ∧
    removeNoopExtension (joinPath dest f.relPath) ++ ".noop".toList =
      joinPath dest f.relPath ∧
    hasSuffix (removeNoopExtension (joinPath dest f.relPath)) s.templateExt = true ∧
    s.collectFileVars srcRoot f u = u := by
  have hsuf : (s.templateExt ++ ".noop".toList) <:+ joinPath srcRoot f.relPath :=
    hasSuffix_iff.mp hfz
  have hjoin_src : joinPath srcRoot f.relPath = srcRoot ++ '/' :: f.relPath := by
    simp [joinPath, hrel]
  have hjoin_dest : joinPath dest f.relPath = dest ++ '/' :: f.relPath := by
    simp [joinPath, hrel]
  have hsep2 : ('/' : Char) ∉ s.templateExt ++ ".noop".toList := by
    intro hmem
    rcases List.mem_append.mp hmem with hmem | hmem
    · exact hsep hmem
    · simp at hmem
  have hsufrel : (s.templateExt ++ ".noop".toList) <:+ f.relPath := by
    apply suffix_through_mid hsep2 srcRoot
    rw [← hjoin_src]
    exact hsuf
  have hsufdest : (s.templateExt ++ ".noop".toList) <:+ joinPath dest f.relPath := by
    rw [hjoin_dest]
    exact hsufrel.trans ((List.suffix_cons '/' f.relPath).trans
      (List.suffix_append dest ('/' :: f.relPath)))
  have hnoopdest : ".noop".toList <:+ joinPath dest f.relPath :=
    (List.suffix_append s.templateExt ".noop".toList).trans hsufdest
  obtain ⟨pre, hpre⟩ := hnoopdest
  have hrm : removeNoopExtension (joinPath dest f.relPath) = pre := by
    rw [removeNoopExtension, if_pos (hasSuffix_iff.mpr ⟨pre, hpre⟩), ← hpre, trimSuffix_append]
  refine ⟨?_, ?_, ?_, ?_⟩
  · simp [Stamper.processFile, Stamper.processTmplNoop, Stamper.copyFile, hfz]
  · rw [hrm, hpre]
  · obtain ⟨q, hq⟩ := hsufdest
    have hqpre : q ++ s.templateExt = pre := by
      have h2 : (q ++ s.templateExt) ++ ".noop".toList = pre ++ ".noop".toList := by
        rw [List.append_assoc, hq, hpre]
      exact List.append_cancel_right h2
    rw [hrm]
    exact hasSuffix_iff.mpr ⟨q, hqpre⟩
  · simp [Stamper.collectFileVars, hfz]

/-- C5 witness: `secret.yaml.tmpl.noop` is copied unexpanded to
`secret.yaml.tmpl` by a stamper with no variables at all. -/
theorem frozen_template_semantics_witness :
    exStamperNoVars.processFile (joinPath "s".toList exFrozen.relPath)
        (joinPath "dst".toList exFrozen.relPath) exFrozen ⟨[], []⟩ =
      (none, (⟨[], []⟩ : FS).writeFile
        (removeNoopExtension (joinPath "dst".toList exFrozen.relPath)) exFrozen.content) :=
  (frozen_template_semantics exStamperNoVars "s".toList "dst".toList exFrozen ⟨[], []⟩ []
    (by decide) (by decide) (by decide)).1

/-!  Helper lemmas: skipping unparseable templates.  -/

theorem collectFileVars_parse_none (s : Stamper) (root : Str) (f : SrcFile)
    (hf : f.parse = none) (u : Usage) : s.collectFileVars root f u = u := by
  simp [Stamper.collectFileVars, hf]

theorem collectTemplateVars_erase_parse_none (s : Stamper) (nm : Str) (ds : List Str)
    (pre post : List SrcFile) (f : SrcFile) (hf : f.parse = none) (u : Usage) :
    s.collectTemplateVars ⟨nm, .dir ds (pre ++ f :: post)⟩ u =
      s.collectTemplateVars ⟨nm, .dir ds (pre ++ post)⟩ u := by
  simp only [Stamper.collectTemplateVars]
  rw [List.foldl_append, List.foldl_cons, collectFileVars_parse_none s nm f hf,
    ← List.foldl_append]

theorem collectAll_congr_mid (s : Stamper) (d1 d2 : SrcDir)
    (hd : ∀ u, s.collectTemplateVars d1 u = s.collectTemplateVars d2 u) :
    ∀ (xs ys : List SrcDir) (u : Usage),
      s.collectAll (xs ++ d1 :: ys) u = s.collectAll (xs ++ d2 :: ys) u := by
  intro xs
  induction xs with
  | nil =>
      intro ys u
      simp only [List.nil_append, Stamper.collectAll, hd u]
  | cons x xs ih =>
      intro ys u
      simp only [List.cons_append, Stamper.collectAll]
      cases hcx : s.collectTemplateVars x u with
      | error e => rfl
      | ok u2 => exact ih ys u2

/-- C8.  Parse errors are non-fatal during extraction: a template file
whose parse fails is simply excluded from the usage index — validating
layers containing it gives the same result as validating the same layers
with the file removed — while the parse failure resurfaces as a fatal
error exactly when that file is selected for rendering (it carries the
template extension and is not frozen), in which case `processFile` fails
before creating the destination file. -/
theorem parse_error_nonfatal (s : Stamper) (dirs1 dirs2 : List SrcDir) (nm : Str)
    (ds : List Str) (pre post : List SrcFile) (f : SrcFile) (hf : f.parse = none) :
    s.validateMultipleTemplateVars (dirs1 ++ ⟨nm, .dir ds (pre ++ f :: post)⟩ :: dirs2) =
      s.validateMultipleTemplateVars (dirs1 ++ ⟨nm, .dir ds (pre ++ post)⟩ :: dirs2) ∧
    (∀ srcPath destPath fs, s.isTmplNoopFile srcPath = false →
      hasSuffix srcPath s.templateExt = true →
      s.processFile srcPath destPath f fs = (some .renderParse, fs)) := by
  constructor
  · have hcoll := collectAll_congr_mid s _ _
      (collectTemplateVars_erase_parse_none s nm ds pre post f hf) dirs1 dirs2 []
    rw [Stamper.validateMultipleTemplateVars, Stamper.validateMultipleTemplateVars, hcoll]
  · intro srcPath destPath fs hn hs
    simp [Stamper.processFile, Stamper.processTemplate, hn, hs, hf]

/-- C8 witness: a layer holding one malformed template validates exactly
like the empty layer, exercising the exclusion of the unparseable file. -/
theorem parse_error_nonfatal_witness :
    exStamperNoVars.validateMultipleTemplateVars [⟨"s".toList, .dir [] [exBadFile]⟩] =
      exStamperNoVars.validateMultipleTemplateVars [⟨"s".toList, .dir [] []⟩] :=
  (parse_error_nonfatal exStamperNoVars [] [] "s".toList [] [] [] exBadFile rfl).1

/-!  Helper lemmas: missing and non-directory source entries.  -/

theorem collectAll_missing (s : Stamper) :
    ∀ (dirs : List SrcDir), (∃ d ∈ dirs, d.info = .missing) →
      ∀ u, s.collectAll dirs u = .error .scanFailed := by
  intro dirs
  induction dirs with
  | nil => rintro ⟨d, hd, _⟩; simp at hd
  | cons d0 ds ih =>
      rintro ⟨d, hd, hm⟩ u
      rcases List.mem_cons.mp hd with h | h
      · subst h
        simp [Stamper.collectAll, Stamper.collectTemplateVars, hm]
      · cases hinfo : d0.info with
        | missing => simp [Stamper.collectAll, Stamper.collectTemplateVars, hinfo]
        | dir dd files =>
            simp only [Stamper.collectAll, Stamper.collectTemplateVars, hinfo]
            exact ih ⟨d, h, hm⟩ _
        | nondirFile c p =>
            simp only [Stamper.collectAll, Stamper.collectTemplateVars, hinfo]
            exact ih ⟨d, h, hm⟩ _

theorem processLayers_nondir (s : Stamper) :
    ∀ (dirs : List SrcDir) (dest : Str) (fs : FS) (i : Nat),
      (∃ d ∈ dirs, ∃ c pr, d.info = .nondirFile c pr) →
      ∃ e fs', s.processLayers dirs dest fs i = (some e, fs') ∧
        ∀ x ∈ fs.dirs, x ∈ fs'.dirs := by
  intro dirs
  induction dirs with
  | nil => rintro dest fs i ⟨d, hd, _⟩; simp at hd
  | cons d0 ds ih =>
      rintro dest fs i ⟨d, hd, c, pr, hinfo⟩
      cases hinfo0 : d0.info with
      | missing =>
          exact ⟨.sourceStat i, fs, by simp [Stamper.processLayers, hinfo0],
            fun x hx => hx⟩
      | nondirFile c0 p0 =>
          exact ⟨.notDirectory i, fs, by simp [Stamper.processLayers, hinfo0],
            fun x hx => hx⟩
      | dir dd files =>
          cases hpt : s.processTemplateDir d0.name dd files dest fs with
          | mk ept fspt =>
            cases ept with
            | some e0 =>
                refine ⟨.layerFailed i e0, fspt, ?_, ?_⟩
                · simp [Stamper.processLayers, hinfo0, hpt]
                · intro x hx
                  have hh := processTemplateDir_dirs_mono s d0.name dd files dest fs hx
                  rw [hpt] at hh
                  exact hh
            | none =>
                have hd' : d ∈ ds := by
                  rcases List.mem_cons.mp hd with hh | hh
                  · subst hh
                    rw [hinfo0] at hinfo
                    cases hinfo
                  · exact hh
                obtain ⟨e, fs', h1, h2⟩ := ih dest fspt (i + 1) ⟨d, hd', c, pr, hinfo⟩
                refine ⟨e, fs', ?_, ?_⟩
                · simp [Stamper.processLayers, hinfo0, hpt, h1]
                · intro x hx
                  have hh := processTemplateDir_dirs_mono s d0.name dd files dest fs hx
                  rw [hpt] at hh
                  exact h2 x hh

/-!  Claim theorems: layer-existence precondition.  -/

/-- C9 counterexample: a single-entry layer list whose entry is an
existing regular file (not a directory).  The walk-based validation scan
passes, the destination root `dst` is created, and only then does the
per-layer `os.Stat` check fail — so the run fails *with* the destination
root already created, contradicting the claim that any list containing a
non-directory entry fails without creating the destination root. -/
theorem layer_existence_counterexample :
    exStamperNoVars.executeMultiple [⟨"plain.txt".toList, .nondirFile "h".toList none⟩]
        "dst".toList ⟨[], []⟩ =
      (some (.notDirectory 1), ⟨[], ["dst".toList]⟩) ∧
    "dst".toList ∈ (⟨[], ["dst".toList]⟩ : FS).dirs := by
  exact ⟨rfl, List.mem_singleton.mpr rfl⟩

/-- C9 amended.  Layer-entry checking is split across two phases: a
non-existent entry makes the validation scan itself fail, before the
destination root is created or anything is written (the file system is
returned untouched); but an entry that exists and is not a directory
passes the scan and is only rejected when its layer's turn comes during
application — the run fails, yet the destination root has already been
created by then. -/
theorem layer_existence_amended :
    (∀ (s : Stamper) (dirs : List SrcDir) (dest : Str) (fs : FS),
      (∃ d ∈ dirs, d.info = .missing) →
      s.executeMultiple dirs dest fs = (some .scanFailed, fs)) ∧
    (∀ (s : Stamper) (dirs : List SrcDir) (dest : Str) (fs : FS) (d : SrcDir)
        (c : Str) (pr : Option Node),
      d ∈ dirs → d.info = .nondirFile c pr →
      s.validateMultipleTemplateVars dirs = .ok () →
      ∃ e fs', s.executeMultiple dirs dest fs = (some e, fs') ∧ dest ∈ fs'.dirs) := by
  constructor
  · rintro s dirs dest fs ⟨d, hd, hmiss⟩
    have hv : s.validateMultipleTemplateVars dirs = .error .scanFailed := by
      rw [Stamper.validateMultipleTemplateVars, collectAll_missing s dirs ⟨d, hd, hmiss⟩ []]
    cases dirs with
    | nil => simp at hd
    | cons d0 ds => simp [Stamper.executeMultiple, hv]
  · intro s dirs dest fs d c pr hd hinfo hv
    cases dirs with
    | nil => simp at hd
    | cons d0 ds =>
        obtain ⟨e, fs', h1, h2⟩ := processLayers_nondir s (d0 :: ds) dest
          (fs.mkdirAll dest) 1 ⟨d, hd, c, pr, hinfo⟩
        refine ⟨e, fs', ?_, ?_⟩
        · simp [Stamper.executeMultiple, hv, h1]
        · exact h2 dest (mem_dirs_mkdirAll_self fs dest)

/-- C9 amended witness: a single missing layer makes the whole run fail
during the validation scan with the file system untouched. -/
theorem layer_existence_amended_witness :
    exStamperNoVars.executeMultiple [⟨"gone".toList, .missing⟩] "dst".toList ⟨[], []⟩ =
      (some .scanFailed, ⟨[], []⟩) :=
  layer_existence_amended.1 exStamperNoVars [⟨"gone".toList, .missing⟩] "dst".toList
    ⟨[], []⟩ ⟨⟨"gone".toList, .missing⟩, List.mem_singleton.mpr rfl, rfl⟩


end Stamp
